import Mathlib

/-!
Shallow embedding of the hn-notify Cloudflare worker (`src/index.ts`):
a keyword store and watermark persisted in a key-value namespace, and a
poll cycle (`handleScheduled`) that searches an external API per keyword,
dedupes hits across keywords, optionally filters by a relevance score,
batches matches into one notification and advances the watermark.

External effects (the search API, the AI scorer, the clock, the ntfy
topic) are modelled as oracle functions bundled in a `World`; the KV
namespace is modelled as an explicit state record threaded through the
store operations.  Scores are rationals (the code's floats in [0,1]).
-/

namespace HNNotify

/-- One Hacker News search hit (`HNHit` in `src/index.ts`).  Optional
string fields are `Option String`; JS truthiness on them is "present and
non-empty". -/
structure HNHit where
  objectID : String
  title : Option String := none
  story_title : Option String := none
  url : Option String := none
  story_url : Option String := none
  author : String := ""
  created_at_i : Nat := 0
  comment_text : Option String := none
deriving DecidableEq, Repr

/-- A stored keyword with optional relevance context (`KeywordConfig`). -/
structure KeywordConfig where
  keyword : String
  context : Option String := none
deriving DecidableEq, Repr

/-- The JSON value persisted under the `keywords` KV key: absent, the
legacy plain string-array format, or the current object-array format. -/
inductive KeywordsValue where
  | absent : KeywordsValue
  | legacy : List String → KeywordsValue
  | current : List KeywordConfig → KeywordsValue
deriving DecidableEq, Repr

/-- The KV namespace state: the two keys the worker uses
(`keywords` and `last_check_timestamp`). -/
structure KVState where
  keywords : KeywordsValue := .absent
  lastCheck : Option Nat := none
deriving DecidableEq, Repr

/-- JS `String.prototype.trim`: drop whitespace from both ends
(char-list formulation so concrete values reduce in the kernel). -/
def strTrim (s : String) : String :=
  ⟨((s.data.dropWhile Char.isWhitespace).reverse.dropWhile Char.isWhitespace).reverse⟩

/-- JS `String.prototype.toLowerCase` (char-wise). -/
def strToLower (s : String) : String :=
  ⟨s.data.map Char.toLower⟩

/-- JS `String.prototype.substring(0, n)`: the first `n` characters. -/
def strTake (s : String) (n : Nat) : String :=
  ⟨s.data.take n⟩

/-- Source `keyword.trim().toLowerCase()` — the normalization applied on add
and remove. -/
def normalize (keyword : String) : String :=
  strToLower (strTrim keyword)

/-- Source `context?.trim() || undefined` — empty or whitespace-only context
becomes absent, otherwise the trimmed context is kept. -/
def trimContext (context : Option String) : Option String :=
  match context with
  | none => none
  | some c => if strTrim c = "" then none else some (strTrim c)

/-- Source `getKeywords`: parse the persisted value; absent means empty; a
non-empty plain string array (legacy format) is migrated element-wise to
entries with no context. -/
def getKeywords : KeywordsValue → List KeywordConfig
  | .absent => []
  | .legacy ss => if ss.length > 0 then ss.map (fun s => ⟨s, none⟩) else []
  | .current ks => ks

/-- The `GET /keywords` read path: `getKeywords` only performs a KV
read, so the state comes back unchanged. -/
def listKeywords (s : KVState) : List KeywordConfig × KVState :=
  (getKeywords s.keywords, s)

/-- Mutate the first entry whose keyword equals `n`, setting its context
(the `keywords.find(...)` / `existing.context = trimmedContext` path of
`addKeyword`); entries before and after the first match are untouched. -/
def updateFirst : List KeywordConfig → String → Option String → List KeywordConfig
  | [], _, _ => []
  | k :: rest, n, c =>
    if k.keyword = n then { k with context := c } :: rest
    else k :: updateFirst rest n c

/-- Source `addKeyword`: throws on empty normalized keyword (before any write),
otherwise upserts by normalized keyword (update-in-place on the first
match, else append) and persists the full updated list. -/
def addKeyword (s : KVState) (keyword : String) (context : Option String) :
    Except String (List KeywordConfig) × KVState :=
  let keywords := getKeywords s.keywords
  let normalized := normalize keyword
  if normalized = "" then
    (.error "Keyword cannot be empty", s)
  else
    let trimmedContext := trimContext context
    let newKeywords :=
      if keywords.any (fun k => k.keyword = normalized) then
        updateFirst keywords normalized trimmedContext
      else
        keywords ++ [⟨normalized, trimmedContext⟩]
    (.ok newKeywords, { s with keywords := .current newKeywords })

/-- Source `removeKeyword`: filter out entries matching the normalized keyword
and persist the result (idempotent; no error when absent). -/
def removeKeyword (s : KVState) (keyword : String) :
    List KeywordConfig × KVState :=
  let keywords := getKeywords s.keywords
  let normalized := normalize keyword
  let filtered := keywords.filter (fun k => k.keyword ≠ normalized)
  (filtered, { s with keywords := .current filtered })

/-- State after adding the same keyword twice with two contexts. -/
def addTwice (s : KVState) (keyword : String) (c1 c2 : Option String) : KVState :=
  (addKeyword (addKeyword s keyword c1).2 keyword c2).2

/-- Scan forward to just past the first `'>'`, if any (the tail of one
match of the regex `<[^>]*>` once its opening `'<'` is consumed). -/
def dropUntilGt : List Char → Option (List Char)
  | [] => none
  | c :: rest => if c = '>' then some rest else dropUntilGt rest

theorem dropUntilGt_length {l l' : List Char} (h : dropUntilGt l = some l') :
    l'.length < l.length := by
  induction l with
  | nil => simp [dropUntilGt] at h
  | cons c rest ih =>
    by_cases hc : c = '>'
    · simp only [dropUntilGt, if_pos hc, Option.some.injEq] at h
      subst h
      simp
    · simp only [dropUntilGt, if_neg hc] at h
      exact Nat.lt_trans (ih h) (by simp)

/-- Fuel-structured body of one global pass of `replace(/<[^>]*>/g, " ")`:
each `'<' … first '>'` span becomes a single space; a `'<'` with no later
`'>'` matches nothing and is kept verbatim.  The fuel only bounds the
recursion (every call strictly shrinks the list, so fuel = initial
length never runs out); structural recursion on it keeps the function
kernel-reducible. -/
def stripTagsAux : Nat → List Char → List Char
  | 0, l => l
  | _ + 1, [] => []
  | fuel + 1, c :: rest =>
    if c = '<' then
      match dropUntilGt rest with
      | some rest' => ' ' :: stripTagsAux fuel rest'
      | none => c :: rest
    else c :: stripTagsAux fuel rest

/-- One global pass of `replace(/<[^>]*>/g, " ")` over a char list. -/
def stripTags (l : List Char) : List Char :=
  stripTagsAux l.length l

/-- Source `s.replace(/<[^>]*>/g, " ")` — HTML tag stripping. -/
def stripHtml (s : String) : String :=
  ⟨stripTags s.data⟩

/-- The candidate snippet of `checkRelevance`: title, story title and
tag-stripped comment body, dropping absent/empty parts (JS
`filter(Boolean)`), joined with spaces and truncated to 500 chars. -/
def buildContent (hit : HNHit) : String :=
  strTake (String.intercalate " "
    (([hit.title, hit.story_title, hit.comment_text.map stripHtml].filterMap id).filter
      (fun s => s ≠ ""))) 500

/-- Minimum score to send a notification (`RELEVANCE_THRESHOLD = 0.5`). -/
def RELEVANCE_THRESHOLD : ℚ := 1 / 2

/-- Source `checkRelevance`: score 0 without calling the model when the snippet
is empty or whitespace; otherwise ask the scorer oracle (query =
keyword context, single candidate = snippet) and default a missing
score to 0.  A scorer failure propagates as the error. -/
def checkRelevance (ai : String → String → Except String (Option ℚ))
    (context : String) (hit : HNHit) : Except String ℚ :=
  let content := buildContent hit
  if strTrim content = "" then .ok 0
  else
    match ai context content with
    | .error e => .error e
    | .ok r => .ok (r.getD 0)

/-- A keyword paired with a hit it surfaced (`MatchedHit`). -/
structure MatchedHit where
  keyword : String
  hit : HNHit
deriving DecidableEq, Repr

/-- The mutable scan state of one `handleScheduled` cycle: the dedupe
set `seenIds` (kept as a list), the accumulated batch and the filtered
counter. -/
structure ScanState where
  seen : List String
  matched : List MatchedHit
  filteredCount : Nat
deriving DecidableEq, Repr

/-- The per-hit body of the scan loop: skip ids already seen this cycle,
otherwise record the id and accumulate the hit — unless the keyword has
a context and the scorer returns a score below threshold, in which case
the hit is only counted as filtered.  A scorer error includes the hit
(fail-open). -/
def processHit (ai : String → String → Except String (Option ℚ))
    (keyword : String) (context : Option String) (st : ScanState) (hit : HNHit) :
    ScanState :=
  if hit.objectID ∈ st.seen then st
  else
    let seen' := st.seen ++ [hit.objectID]
    match context with
    | none => ⟨seen', st.matched ++ [⟨keyword, hit⟩], st.filteredCount⟩
    | some c =>
      match checkRelevance ai c hit with
      | .error _ => ⟨seen', st.matched ++ [⟨keyword, hit⟩], st.filteredCount⟩
      | .ok score =>
        if score < RELEVANCE_THRESHOLD then
          ⟨seen', st.matched, st.filteredCount + 1⟩
        else
          ⟨seen', st.matched ++ [⟨keyword, hit⟩], st.filteredCount⟩

/-- The external collaborators of one poll cycle: the search API
response per (query, since-timestamp), the relevance scorer, the clock
and the configured notification topic. -/
structure World where
  search : String → Nat → Except String (List HNHit)
  ai : String → String → Except String (Option ℚ)
  now : Nat
  ntfyTopic : String

/-- The per-keyword step of the scan loop: a failed search is logged and
skipped (state unchanged), a successful one folds its hits through
`processHit` in API-returned order. -/
def processKeyword (world : World) (lastCheck : Nat) (st : ScanState)
    (kc : KeywordConfig) : ScanState :=
  match world.search kc.keyword lastCheck with
  | .error _ => st
  | .ok hits => hits.foldl (processHit world.ai kc.keyword kc.context) st

/-- The whole scan: keywords processed in list order. -/
def scanKeywords (world : World) (lastCheck : Nat)
    (configs : List KeywordConfig) (st : ScanState) : ScanState :=
  configs.foldl (processKeyword world lastCheck) st

/-- Source `getLastCheckTimestamp`: the persisted watermark, defaulting to
15 minutes before now on first run. -/
def getLastCheckTimestamp (s : KVState) (now : Nat) : Nat :=
  match s.lastCheck with
  | none => now - 15 * 60
  | some t => t

/-- Source `setLastCheckTimestamp`: persist the watermark under the
last-check key. -/
def setLastCheckTimestamp (s : KVState) (timestamp : Nat) : KVState :=
  { s with lastCheck := some timestamp }

/-- JS `a || b` on an optional string: `b` when absent or empty. -/
def orElseStr (a : Option String) (b : String) : String :=
  match a with
  | none => b
  | some s => if s = "" then b else s

/-- Source `hit.title || hit.story_title || "Comment"`. -/
def itemTitle (hit : HNHit) : String :=
  orElseStr hit.title (orElseStr hit.story_title "Comment")

/-- Source `formatHitBody`: comment snippet (tags stripped, truncated to 200
chars, ellipsis appended) for a truthy comment, else `by <author>`. -/
def formatHitBody (hit : HNHit) : String :=
  match hit.comment_text with
  | some ct => if ct = "" then "by " ++ hit.author
               else strTake (stripHtml ct) 200 ++ "..."
  | none => "by " ++ hit.author

/-- Per-keyword match counts in first-insertion order (the JS `Map`
accumulation in `formatBatchNotification`). -/
def keywordCounts (ms : List MatchedHit) : List (String × Nat) :=
  ms.foldl
    (fun acc m =>
      if acc.any (fun p => p.1 = m.keyword) then
        acc.map (fun p => if p.1 = m.keyword then (p.1, p.2 + 1) else p)
      else acc ++ [(m.keyword, 1)])
    []

/-- Source `formatBatchNotification`: singular format for one match, summary +
up to 10 bullets (+ overflow line) for several. -/
def formatBatchNotification (ms : List MatchedHit) : String × String :=
  match ms with
  | [] => ("HN Alert", "No matches")
  | [m] => ("[" ++ m.keyword ++ "] " ++ itemTitle m.hit, formatHitBody m.hit)
  | _ =>
    let summaryParts := (keywordCounts ms).map
      (fun p => p.1 ++ "(" ++ toString p.2 ++ ")")
    let title := "HN Alert: " ++ toString ms.length ++ " matches"
    let lines := [String.intercalate ", " summaryParts, ""] ++
      (ms.take 10).map
        (fun m => "• [" ++ m.keyword ++ "] " ++ strTake (itemTitle m.hit) 60) ++
      (if ms.length > 10 then
        ["... and " ++ toString (ms.length - 10) ++ " more"]
       else [])
    (title, String.intercalate "\n" lines)

/-- A sent notification: title and body as formatted, plus the click
link built in `handleScheduled`. -/
structure Notification where
  title : String
  body : String
  url : String
deriving DecidableEq, Repr

/-- Source link `https://news.ycombinator.com/item?id=` followed by the first match's hit id. -/
def notificationUrl (m : MatchedHit) : String :=
  "https://news.ycombinator.com/item?id=" ++ m.hit.objectID

/-- One poll cycle (`handleScheduled`): no-op when no keywords or no
topic; otherwise scan every keyword from the watermark, send one batch
notification if anything matched, and unconditionally persist `now` as
the new watermark. -/
def handleScheduled (world : World) (s : KVState) : KVState × Option Notification :=
  let keywordConfigs := getKeywords s.keywords
  if keywordConfigs.length = 0 then (s, none)
  else if world.ntfyTopic = "" then (s, none)
  else
    let lastCheck := getLastCheckTimestamp s world.now
    let final := scanKeywords world lastCheck keywordConfigs ⟨[], [], 0⟩
    let notification :=
      match final.matched with
      | [] => none
      | m :: rest =>
        let fmt := formatBatchNotification (m :: rest)
        some ⟨fmt.1, fmt.2, notificationUrl m⟩
    (setLastCheckTimestamp s world.now, notification)

/-- The ids a keyword's search contributes this cycle: none on a failed
query, the hits' ids in API order on a successful one. -/
def searchIds (world : World) (lastCheck : Nat) (kc : KeywordConfig) : List String :=
  match world.search kc.keyword lastCheck with
  | .error _ => []
  | .ok hits => hits.map (fun h => h.objectID)

/-- From the claim's wording: the keyword appearing earliest in list
order among those whose (successful) search returned the id. -/
def firstOwner (world : World) (lastCheck : Nat) :
    List KeywordConfig → String → Option String
  | [], _ => none
  | kc :: rest, id =>
    if id ∈ searchIds world lastCheck kc then some kc.keyword
    else firstOwner world lastCheck rest id

end HNNotify

namespace HNNotify

/-- C7: when the persisted keyword value is a legacy plain array of
strings, `list()` returns one context-free entry per element in order;
when the value is absent, `list()` returns the empty sequence; and
`list()` returns the store state unchanged (read-only migration). -/
theorem C7_legacy_migration (s : KVState) (ss : List String) :
    (s.keywords = .legacy ss →
      listKeywords s = (ss.map (fun str => ⟨str, none⟩), s)) ∧
    (s.keywords = .absent → listKeywords s = ([], s)) := by
  constructor
  · intro h
    cases ss with
    | nil => simp [listKeywords, getKeywords, h]
    | cons a t => simp [listKeywords, getKeywords, h]
  · intro h
    simp [listKeywords, getKeywords, h]

/-- Witness for C7 at a concrete legacy store and a concrete absent store. -/
theorem C7_legacy_migration_witness :
    listKeywords ⟨.legacy ["rust", "zig"], some 5⟩ =
      ([⟨"rust", none⟩, ⟨"zig", none⟩], ⟨.legacy ["rust", "zig"], some 5⟩) ∧
    listKeywords ⟨.absent, none⟩ = ([], ⟨.absent, none⟩) := by
  refine ⟨?_, ?_⟩
  · exact (C7_legacy_migration ⟨.legacy ["rust", "zig"], some 5⟩ ["rust", "zig"]).1 rfl
  · exact (C7_legacy_migration ⟨.absent, none⟩ []).2 rfl

theorem getKeywords_current (l : List KeywordConfig) : getKeywords (.current l) = l := rfl

theorem updateFirst_of_forall_ne {l : List KeywordConfig} {n : String} {c : Option String}
    (h : ∀ e ∈ l, e.keyword ≠ n) : updateFirst l n c = l := by
  induction l with
  | nil => rfl
  | cons k t ih =>
    simp only [updateFirst, if_neg (h k (List.mem_cons_self k t))]
    rw [ih (fun e he => h e (List.mem_cons_of_mem k he))]

theorem updateFirst_append_last {l : List KeywordConfig} {n : String}
    (h : ∀ e ∈ l, e.keyword ≠ n) (c0 c : Option String) :
    updateFirst (l ++ [⟨n, c0⟩]) n c = l ++ [⟨n, c⟩] := by
  induction l with
  | nil => simp [updateFirst]
  | cons k t ih =>
    have hk := h k (List.mem_cons_self k t)
    have iht := ih (fun e he => h e (List.mem_cons_of_mem k he))
    simp [updateFirst, hk, iht, List.append_eq]

/-- Index of the first stored entry whose keyword equals `n` (the entry
`keywords.find(...)` locates in `addKeyword`). -/
def firstMatchIdx : List KeywordConfig → String → Option Nat
  | [], _ => none
  | k :: t, n => if k.keyword = n then some 0 else (firstMatchIdx t n).map (· + 1)

theorem firstMatchIdx_eq_none_iff {l : List KeywordConfig} {n : String} :
    firstMatchIdx l n = none ↔ ∀ e ∈ l, e.keyword ≠ n := by
  induction l with
  | nil => simp [firstMatchIdx]
  | cons k t ih =>
    by_cases hk : k.keyword = n
    · simp [firstMatchIdx, hk]
    · simp [firstMatchIdx, hk, ih]

theorem firstMatchIdx_eq_some_decomp {l : List KeywordConfig} {n : String} {j : Nat}
    (h : firstMatchIdx l n = some j) :
    ∃ l₁ e l₂, l = l₁ ++ e :: l₂ ∧ l₁.length = j ∧ e.keyword = n ∧
      ∀ x ∈ l₁, x.keyword ≠ n := by
  induction l generalizing j with
  | nil => simp [firstMatchIdx] at h
  | cons k t ih =>
    by_cases hk : k.keyword = n
    · simp only [firstMatchIdx, if_pos hk, Option.some.injEq] at h
      exact ⟨[], k, t, rfl, h, hk, by simp⟩
    · simp only [firstMatchIdx, if_neg hk, Option.map_eq_some'] at h
      obtain ⟨j', hj', rfl⟩ := h
      obtain ⟨l₁, e, l₂, rfl, hlen, he, hall⟩ := ih hj'
      refine ⟨k :: l₁, e, l₂, rfl, by simp [hlen], he, ?_⟩
      intro x hx
      rcases List.mem_cons.mp hx with rfl | hx
      · exact hk
      · exact hall x hx

theorem updateFirst_eq_set {l : List KeywordConfig} {n : String} {j : Nat}
    (c : Option String) (h : firstMatchIdx l n = some j) :
    updateFirst l n c = l.set j ⟨n, c⟩ := by
  induction l generalizing j with
  | nil => simp [firstMatchIdx] at h
  | cons k t ih =>
    by_cases hk : k.keyword = n
    · simp only [firstMatchIdx, if_pos hk, Option.some.injEq] at h
      subst h
      simp only [updateFirst, if_pos hk, List.set]
      have : ({ k with context := c } : KeywordConfig) = ⟨n, c⟩ := by
        cases k; simp_all
      rw [this]
    · simp only [firstMatchIdx, if_neg hk, Option.map_eq_some'] at h
      obtain ⟨j', hj', rfl⟩ := h
      simp only [updateFirst, if_neg hk, List.set]
      rw [ih hj']

theorem firstMatchIdx_set {l : List KeywordConfig} {n : String} {j : Nat}
    (c : Option String) (h : firstMatchIdx l n = some j) :
    firstMatchIdx (l.set j ⟨n, c⟩) n = some j := by
  induction l generalizing j with
  | nil => simp [firstMatchIdx] at h
  | cons k t ih =>
    by_cases hk : k.keyword = n
    · simp only [firstMatchIdx, if_pos hk, Option.some.injEq] at h
      subst h
      simp [List.set, firstMatchIdx]
    · simp only [firstMatchIdx, if_neg hk, Option.map_eq_some'] at h
      obtain ⟨j', hj', rfl⟩ := h
      simp only [List.set, firstMatchIdx, if_neg hk]
      rw [ih hj']
      rfl

theorem set_length_append (l₁ : List KeywordConfig) (e b : KeywordConfig)
    (l₂ : List KeywordConfig) : (l₁ ++ e :: l₂).set l₁.length b = l₁ ++ b :: l₂ := by
  induction l₁ with
  | nil => rfl
  | cons k t ih => simp [List.set, ih]

theorem addKeyword_state_of_not_found {s : KVState} {k : String} (c : Option String)
    (hn : normalize k ≠ "")
    (h : ∀ e ∈ getKeywords s.keywords, e.keyword ≠ normalize k) :
    (addKeyword s k c).2.keywords =
      .current (getKeywords s.keywords ++ [⟨normalize k, trimContext c⟩]) := by
  have hany : (getKeywords s.keywords).any (fun e => e.keyword = normalize k) = false := by
    simp only [List.any_eq_false, decide_eq_true_eq]
    exact h
  simp [addKeyword, hn, hany]

theorem addKeyword_state_of_found {s : KVState} {k : String} {j : Nat} (c : Option String)
    (hn : normalize k ≠ "")
    (h : firstMatchIdx (getKeywords s.keywords) (normalize k) = some j) :
    (addKeyword s k c).2.keywords =
      .current ((getKeywords s.keywords).set j ⟨normalize k, trimContext c⟩) := by
  obtain ⟨l₁, e, l₂, hdec, hlen, he, hall⟩ := firstMatchIdx_eq_some_decomp h
  have hany : (getKeywords s.keywords).any (fun e => e.keyword = normalize k) = true := by
    simp only [List.any_eq_true, decide_eq_true_eq]
    exact ⟨e, by rw [hdec]; exact List.mem_append_right _ (List.mem_cons_self e l₂), he⟩
  simp [addKeyword, hn, hany, updateFirst_eq_set (trimContext c) h]

theorem addKeyword_state_of_any {s : KVState} {k : String} (c : Option String)
    (hn : normalize k ≠ "")
    (hany : (getKeywords s.keywords).any (fun e => e.keyword = normalize k) = true) :
    (addKeyword s k c).2.keywords =
      .current (updateFirst (getKeywords s.keywords) (normalize k) (trimContext c)) := by
  simp [addKeyword, hn, hany]

theorem addTwice_keywords_of_not_found {s : KVState} {k : String} (c1 c2 : Option String)
    (hn : normalize k ≠ "")
    (h : ∀ e ∈ getKeywords s.keywords, e.keyword ≠ normalize k) :
    getKeywords (addTwice s k c1 c2).keywords =
      getKeywords s.keywords ++ [⟨normalize k, trimContext c2⟩] := by
  unfold addTwice
  have h1 := addKeyword_state_of_not_found (s := s) (k := k) c1 hn h
  set s1 := (addKeyword s k c1).2 with hs1
  have hg1 : getKeywords s1.keywords =
      getKeywords s.keywords ++ [⟨normalize k, trimContext c1⟩] := by
    rw [h1, getKeywords_current]
  have hany : (getKeywords s1.keywords).any (fun e => e.keyword = normalize k) = true := by
    simp only [List.any_eq_true, decide_eq_true_eq]
    exact ⟨⟨normalize k, trimContext c1⟩, by
      rw [hg1]; exact List.mem_append_right _ (List.mem_cons_self _ _), rfl⟩
  have hupd : updateFirst (getKeywords s1.keywords) (normalize k) (trimContext c2) =
      getKeywords s.keywords ++ [⟨normalize k, trimContext c2⟩] := by
    rw [hg1]
    exact updateFirst_append_last h _ _
  rw [addKeyword_state_of_any c2 hn hany, hupd, getKeywords_current]

theorem addTwice_keywords_of_found {s : KVState} {k : String} {j : Nat} (c1 c2 : Option String)
    (hn : normalize k ≠ "")
    (h : firstMatchIdx (getKeywords s.keywords) (normalize k) = some j) :
    getKeywords (addTwice s k c1 c2).keywords =
      (getKeywords s.keywords).set j ⟨normalize k, trimContext c2⟩ := by
  unfold addTwice
  have h1 := addKeyword_state_of_found (s := s) (k := k) c1 hn h
  set s1 := (addKeyword s k c1).2 with hs1
  have hg1 : getKeywords s1.keywords =
      (getKeywords s.keywords).set j ⟨normalize k, trimContext c1⟩ := by
    rw [h1, getKeywords_current]
  have hidx : firstMatchIdx (getKeywords s1.keywords) (normalize k) = some j := by
    rw [hg1]; exact firstMatchIdx_set _ h
  have h2 := addKeyword_state_of_found (s := s1) (k := k) c2 hn hidx
  rw [h2, getKeywords_current, hg1, List.set_set]

/-- C3 as stated is false on the code: with a persisted list already
holding two entries for the same keyword, two adds leave two entries for
that keyword, and the stored context is the trimmed form of `c2`, not
`c2` itself.  The claim predicts a single entry `⟨"x", some " b "⟩`. -/
theorem C3_claim_counterexample :
    (getKeywords (addTwice ⟨.current [⟨"x", none⟩, ⟨"x", none⟩], none⟩
        "x" (some "a") (some " b ")).keywords).filter (fun e => e.keyword = "x") =
      [⟨"x", some "b"⟩, ⟨"x", none⟩] ∧
    ([(⟨"x", some "b"⟩ : KeywordConfig), ⟨"x", none⟩] : List KeywordConfig) ≠
      [⟨"x", some " b "⟩] := by
  exact ⟨by decide, by decide⟩

/-- C3 (amended): for every store state in which at most one stored
entry carries the normalized keyword `n`, adding `k` with `c1` and then
with `c2` yields a stored sequence with exactly one entry for `n`,
carrying the trimmed `c2` (absent if blank or omitted); if `n` was
already present the entry stays at its original position (pointwise
`set` at the first matching index), otherwise it is appended at the
end. -/
theorem C3_upsert_amended (s : KVState) (k : String) (c1 c2 : Option String)
    (hn : normalize k ≠ "")
    (hcount : ((getKeywords s.keywords).filter
      (fun e => e.keyword = normalize k)).length ≤ 1) :
    ((getKeywords (addTwice s k c1 c2).keywords).filter
        (fun e => e.keyword = normalize k) = [⟨normalize k, trimContext c2⟩]) ∧
    (firstMatchIdx (getKeywords s.keywords) (normalize k) = none →
        getKeywords (addTwice s k c1 c2).keywords =
          getKeywords s.keywords ++ [⟨normalize k, trimContext c2⟩]) ∧
    (∀ j, firstMatchIdx (getKeywords s.keywords) (normalize k) = some j →
        getKeywords (addTwice s k c1 c2).keywords =
          (getKeywords s.keywords).set j ⟨normalize k, trimContext c2⟩) := by
  refine ⟨?_, ?_, ?_⟩
  · rcases hidx : firstMatchIdx (getKeywords s.keywords) (normalize k) with _ | j
    · have hall := firstMatchIdx_eq_none_iff.mp hidx
      rw [addTwice_keywords_of_not_found c1 c2 hn hall]
      rw [List.filter_append]
      have h1 : (getKeywords s.keywords).filter (fun e => e.keyword = normalize k) = [] := by
        simp only [List.filter_eq_nil_iff, decide_eq_true_eq]
        exact hall
      rw [h1]
      simp
    · obtain ⟨l₁, e, l₂, hdec, hlen, he, hall⟩ := firstMatchIdx_eq_some_decomp hidx
      rw [addTwice_keywords_of_found c1 c2 hn hidx, hdec, ← hlen, set_length_append]
      have h1 : l₁.filter (fun e => e.keyword = normalize k) = [] := by
        simp only [List.filter_eq_nil_iff, decide_eq_true_eq]
        exact hall
      have h2 : l₂.filter (fun e => e.keyword = normalize k) = [] := by
        rw [hdec, List.filter_append, h1] at hcount
        rw [List.filter_cons_of_pos (by simp [he])] at hcount
        simp only [List.nil_append, List.length_cons] at hcount
        have hlen0 : (l₂.filter (fun e => e.keyword = normalize k)).length = 0 := by omega
        exact List.length_eq_zero.mp hlen0
      rw [List.filter_append, h1, List.nil_append, List.filter_cons_of_pos (by simp), h2]
  · intro hidx
    exact addTwice_keywords_of_not_found c1 c2 hn (firstMatchIdx_eq_none_iff.mp hidx)
  · intro j hidx
    exact addTwice_keywords_of_found c1 c2 hn hidx

/-- Witness for the amended C3 at a concrete store: re-adding `" Rust "`
(normalizing to `"rust"`, already present at index 1) with context
`" b "` stores exactly one `rust` entry, in place, with context `"b"`. -/
theorem C3_upsert_amended_witness :
    (getKeywords (addTwice ⟨.current [⟨"go", some "old"⟩, ⟨"rust", some "x"⟩], none⟩
        " Rust " (some "a") (some " b ")).keywords).filter
        (fun e => e.keyword = normalize " Rust ") = [⟨"rust", some "b"⟩] ∧
    getKeywords (addTwice ⟨.current [⟨"go", some "old"⟩, ⟨"rust", some "x"⟩], none⟩
        " Rust " (some "a") (some " b ")).keywords =
      [⟨"go", some "old"⟩, ⟨"rust", some "b"⟩] := by
  have h := C3_upsert_amended ⟨.current [⟨"go", some "old"⟩, ⟨"rust", some "x"⟩], none⟩
    " Rust " (some "a") (some " b ") (by decide) (by decide)
  refine ⟨?_, ?_⟩
  · have h1 := h.1
    rw [h1]
    decide
  · have h2 := h.2.2 1 (by decide)
    rw [h2]
    decide

theorem updateFirst_map_keyword (l : List KeywordConfig) (n : String) (c : Option String) :
    (updateFirst l n c).map (fun e => e.keyword) = l.map (fun e => e.keyword) := by
  induction l with
  | nil => rfl
  | cons k t ih =>
    by_cases hk : k.keyword = n
    · simp [updateFirst, hk]
    · simp [updateFirst, hk, ih]

/-- C9: starting from a stored sequence whose entries are all normalized
and pairwise distinct in keyword, both the sequence returned (and
persisted) by a successful `addKeyword` and the one returned (and
persisted) by `removeKeyword` keep the keyword values pairwise
distinct. -/
theorem C9_uniqueness_preserved (s : KVState) (k : String) (c : Option String)
    (hnorm : ∀ e ∈ getKeywords s.keywords, normalize e.keyword = e.keyword ∧ e.keyword ≠ "")
    (hnodup : ((getKeywords s.keywords).map (fun e => e.keyword)).Nodup) :
    (∀ res s', addKeyword s k c = (.ok res, s') →
        (res.map (fun e => e.keyword)).Nodup ∧ getKeywords s'.keywords = res) ∧
    ((((removeKeyword s k).1).map (fun e => e.keyword)).Nodup ∧
      getKeywords ((removeKeyword s k).2).keywords = (removeKeyword s k).1) := by
  constructor
  · intro res s' hadd
    by_cases hn : normalize k = ""
    · simp [addKeyword, hn] at hadd
    · by_cases hany : (getKeywords s.keywords).any (fun e => e.keyword = normalize k) = true
      · have : addKeyword s k c =
            (.ok (updateFirst (getKeywords s.keywords) (normalize k) (trimContext c)),
             { s with keywords := .current (updateFirst (getKeywords s.keywords)
                (normalize k) (trimContext c)) }) := by
          simp [addKeyword, hn, hany]
        rw [this] at hadd
        obtain ⟨hres, hs'⟩ := Prod.mk.injEq .. ▸ hadd
        cases hres
        refine ⟨?_, by rw [← hs', getKeywords_current]⟩
        rw [updateFirst_map_keyword]
        exact hnodup
      · have hall : ∀ e ∈ getKeywords s.keywords, e.keyword ≠ normalize k := by
          intro e he
          simp only [List.any_eq_true, decide_eq_true_eq, not_exists] at hany
          have := hany e
          simp only [he, true_and] at this
          simpa using this
        have : addKeyword s k c =
            (.ok (getKeywords s.keywords ++ [⟨normalize k, trimContext c⟩]),
             { s with keywords := .current (getKeywords s.keywords ++
                [⟨normalize k, trimContext c⟩]) }) := by
          have hanyf : (getKeywords s.keywords).any (fun e => e.keyword = normalize k) = false := by
            simp only [List.any_eq_false, decide_eq_true_eq]
            exact hall
          simp [addKeyword, hn, hanyf]
        rw [this] at hadd
        obtain ⟨hres, hs'⟩ := Prod.mk.injEq .. ▸ hadd
        cases hres
        refine ⟨?_, by rw [← hs', getKeywords_current]⟩
        rw [List.map_append]
        apply List.Nodup.append hnodup (by simp)
        intro a ha hb
        simp only [List.map_cons, List.map_nil, List.mem_singleton] at hb
        obtain ⟨e, he, hek⟩ := List.mem_map.mp ha
        exact hall e he (hek.trans hb)
  · constructor
    · have hsub : List.Sublist
          (((getKeywords s.keywords).filter
            (fun e => e.keyword ≠ normalize k)).map (fun e => e.keyword))
          ((getKeywords s.keywords).map (fun e => e.keyword)) :=
        (List.filter_sublist _).map _
      exact List.Nodup.sublist hsub hnodup
    · rfl

/-- Witness for C9 at a concrete normalized store: adding `"zig"` and
removing `"rust"` both keep keywords pairwise distinct. -/
theorem C9_uniqueness_preserved_witness :
    (([(⟨"rust", none⟩ : KeywordConfig), ⟨"go", some "x"⟩, ⟨"zig", none⟩].map
        (fun e => e.keyword)).Nodup) ∧
    ((((removeKeyword ⟨.current [⟨"rust", none⟩, ⟨"go", some "x"⟩], none⟩ "rust").1).map
        (fun e => e.keyword)).Nodup) := by
  have h := C9_uniqueness_preserved ⟨.current [⟨"rust", none⟩, ⟨"go", some "x"⟩], none⟩
    "zig" none (by decide) (by decide)
  have h' := C9_uniqueness_preserved ⟨.current [⟨"rust", none⟩, ⟨"go", some "x"⟩], none⟩
    "rust" none (by decide) (by decide)
  exact ⟨(h.1 [⟨"rust", none⟩, ⟨"go", some "x"⟩, ⟨"zig", none⟩]
    ⟨.current [⟨"rust", none⟩, ⟨"go", some "x"⟩, ⟨"zig", none⟩], none⟩ rfl).1, h'.2.1⟩

theorem handleScheduled_lastCheck (w : World) (s : KVState)
    (hk : getKeywords s.keywords ≠ []) (ht : w.ntfyTopic ≠ "") :
    ((handleScheduled w s).1).lastCheck = some w.now := by
  have hlen : ¬ (getKeywords s.keywords).length = 0 := by
    simpa [List.length_eq_zero] using hk
  simp [handleScheduled, hlen, ht, setLastCheckTimestamp]

/-- C1: every completed poll cycle with a non-empty keyword list and a
configured topic stores the cycle's start time `Tnow` under the
last-check key — with no condition on match counts or search-query
outcomes (the `World` is universally quantified, covering failing
searches and zero matches). -/
theorem C1_watermark_unconditional (w : World) (s : KVState)
    (hk : getKeywords s.keywords ≠ []) (ht : w.ntfyTopic ≠ "") :
    ((handleScheduled w s).1).lastCheck = some w.now :=
  handleScheduled_lastCheck w s hk ht

/-- Witness for C1: a cycle whose only search query fails still persists
`now = 12345` as the watermark. -/
theorem C1_watermark_unconditional_witness :
    ((handleScheduled
        ⟨fun _ _ => .error "HN API error: 500", fun _ _ => .ok none, 12345, "topic"⟩
        ⟨.current [⟨"rust", none⟩], none⟩).1).lastCheck = some 12345 :=
  C1_watermark_unconditional
    ⟨fun _ _ => .error "HN API error: 500", fun _ _ => .ok none, 12345, "topic"⟩
    ⟨.current [⟨"rust", none⟩], none⟩ (by decide) (by decide)

/-- Whether the per-hit loop body accumulates a fresh hit: always when
the keyword has no context; with a context, when the scorer errors
(fail-open) or the score reaches the threshold. -/
def includeHit (ai : String → String → Except String (Option ℚ))
    (context : Option String) (hit : HNHit) : Bool :=
  match context with
  | none => true
  | some c =>
    match checkRelevance ai c hit with
    | .error _ => true
    | .ok score => decide (RELEVANCE_THRESHOLD ≤ score)

theorem processHit_eq (ai : String → String → Except String (Option ℚ))
    (kw : String) (ctx : Option String) (st : ScanState) (hit : HNHit) :
    processHit ai kw ctx st hit =
      if hit.objectID ∈ st.seen then st
      else ⟨st.seen ++ [hit.objectID],
            st.matched ++ (if includeHit ai ctx hit then [⟨kw, hit⟩] else []),
            st.filteredCount + (if includeHit ai ctx hit then 0 else 1)⟩ := by
  by_cases hmem : hit.objectID ∈ st.seen
  · simp [processHit, hmem]
  · cases ctx with
    | none => simp [processHit, includeHit, hmem]
    | some c =>
      cases hcr : checkRelevance ai c hit with
      | error e => simp [processHit, includeHit, hmem, hcr]
      | ok score =>
        by_cases hs : score < RELEVANCE_THRESHOLD
        · have hns : ¬ RELEVANCE_THRESHOLD ≤ score := not_le.mpr hs
          simp [processHit, includeHit, hmem, hcr, hs, hns]
        · have hge : RELEVANCE_THRESHOLD ≤ score := not_lt.mp hs
          simp [processHit, includeHit, hmem, hcr, hs, hge]

/-- C4: for a fresh hit whose keyword has a context, the scorer returns
0 outright when the snippet is empty or whitespace; given a returned
score, the hit is accumulated exactly when the score reaches the 0.5
threshold, and a below-threshold hit is dropped but counted — the loop
body stays total either way. -/
theorem C4_relevance_threshold (ai : String → String → Except String (Option ℚ))
    (kw c : String) (st : ScanState) (hit : HNHit) (score : ℚ)
    (hfresh : hit.objectID ∉ st.seen) :
    (strTrim (buildContent hit) = "" → checkRelevance ai c hit = .ok 0) ∧
    (checkRelevance ai c hit = .ok score →
      (RELEVANCE_THRESHOLD ≤ score →
        processHit ai kw (some c) st hit =
          ⟨st.seen ++ [hit.objectID], st.matched ++ [⟨kw, hit⟩], st.filteredCount⟩) ∧
      (score < RELEVANCE_THRESHOLD →
        processHit ai kw (some c) st hit =
          ⟨st.seen ++ [hit.objectID], st.matched, st.filteredCount + 1⟩)) := by
  constructor
  · intro hempty
    simp [checkRelevance, hempty]
  · intro hcr
    constructor
    · intro hge
      have hns : ¬ score < RELEVANCE_THRESHOLD := not_lt.mpr hge
      simp [processHit, hfresh, hcr, hns]
    · intro hlt
      simp [processHit, hfresh, hcr, hlt]

/-- Witness for C4: a score of 7/10 accumulates the hit, a score of 3/10
drops and counts it, and an all-empty hit scores 0 without any oracle. -/
theorem C4_relevance_threshold_witness :
    processHit (fun _ _ => .ok (some (7/10))) "rust" (some "systems language")
        ⟨[], [], 0⟩ ⟨"a1", some "Rust 1.0", none, none, none, "au", 0, none⟩ =
      ⟨["a1"], [⟨"rust", ⟨"a1", some "Rust 1.0", none, none, none, "au", 0, none⟩⟩], 0⟩ ∧
    processHit (fun _ _ => .ok (some (3/10))) "rust" (some "systems language")
        ⟨[], [], 0⟩ ⟨"a1", some "Rust 1.0", none, none, none, "au", 0, none⟩ =
      ⟨["a1"], [], 1⟩ ∧
    checkRelevance (fun _ _ => .ok (some (9/10))) "systems language"
        ⟨"a2", none, none, none, none, "au", 0, none⟩ = .ok 0 := by
  refine ⟨?_, ?_, ?_⟩
  · exact ((C4_relevance_threshold (fun _ _ => .ok (some (7/10))) "rust"
      "systems language" ⟨[], [], 0⟩
      ⟨"a1", some "Rust 1.0", none, none, none, "au", 0, none⟩ (7/10)
      (by simp)).2 rfl).1 (by norm_num [RELEVANCE_THRESHOLD])
  · exact ((C4_relevance_threshold (fun _ _ => .ok (some (3/10))) "rust"
      "systems language" ⟨[], [], 0⟩
      ⟨"a1", some "Rust 1.0", none, none, none, "au", 0, none⟩ (3/10)
      (by simp)).2 rfl).2 (by norm_num [RELEVANCE_THRESHOLD])
  · exact (C4_relevance_threshold (fun _ _ => .ok (some (9/10))) "rust"
      "systems language" ⟨[], [], 0⟩
      ⟨"a2", none, none, none, none, "au", 0, none⟩ 0 (by simp)).1 (by decide)

/-- C5: for a fresh hit whose keyword has a context, a scorer error is
fail-open — the hit is accumulated exactly as a passing hit would be,
and the loop body returns normally. -/
theorem C5_scorer_error_fail_open (ai : String → String → Except String (Option ℚ))
    (kw c : String) (st : ScanState) (hit : HNHit) (e : String)
    (hfresh : hit.objectID ∉ st.seen)
    (herr : checkRelevance ai c hit = .error e) :
    processHit ai kw (some c) st hit =
      ⟨st.seen ++ [hit.objectID], st.matched ++ [⟨kw, hit⟩], st.filteredCount⟩ := by
  simp [processHit, hfresh, herr]

/-- Witness for C5: a throwing scorer still accumulates the hit. -/
theorem C5_scorer_error_fail_open_witness :
    processHit (fun _ _ => .error "model unavailable") "rust" (some "systems language")
        ⟨[], [], 0⟩ ⟨"a1", some "Rust 1.0", none, none, none, "au", 0, none⟩ =
      ⟨["a1"], [⟨"rust", ⟨"a1", some "Rust 1.0", none, none, none, "au", 0, none⟩⟩], 0⟩ :=
  C5_scorer_error_fail_open (fun _ _ => .error "model unavailable") "rust"
    "systems language" ⟨[], [], 0⟩
    ⟨"a1", some "Rust 1.0", none, none, none, "au", 0, none⟩ "model unavailable"
    (by simp) rfl

/-- C6: a failing search query for one keyword leaves the scan exactly
as if that keyword were absent — earlier and later keywords contribute
their hits in list order — and the cycle still advances the watermark. -/
theorem C6_search_failure_isolated (w : World) (s : KVState) (lc : Nat)
    (st : ScanState) (pre post : List KeywordConfig) (kcF : KeywordConfig) (e : String)
    (hfail : w.search kcF.keyword lc = .error e)
    (hk : getKeywords s.keywords ≠ []) (ht : w.ntfyTopic ≠ "") :
    scanKeywords w lc (pre ++ kcF :: post) st = scanKeywords w lc (pre ++ post) st ∧
    ((handleScheduled w s).1).lastCheck = some w.now := by
  constructor
  · unfold scanKeywords
    rw [List.foldl_append, List.foldl_append, List.foldl_cons]
    congr 1
    simp [processKeyword, hfail]
  · exact handleScheduled_lastCheck w s hk ht

theorem processHit_seen (ai : String → String → Except String (Option ℚ))
    (kw : String) (ctx : Option String) (st : ScanState) (hit : HNHit) :
    (processHit ai kw ctx st hit).seen =
      if hit.objectID ∈ st.seen then st.seen else st.seen ++ [hit.objectID] := by
  rw [processHit_eq]
  split <;> rfl

theorem mem_processHit_seen (ai : String → String → Except String (Option ℚ))
    (kw : String) (ctx : Option String) (st : ScanState) (hit : HNHit) (x : String) :
    x ∈ (processHit ai kw ctx st hit).seen ↔ x ∈ st.seen ∨ x = hit.objectID := by
  rw [processHit_seen]
  by_cases hmem : hit.objectID ∈ st.seen
  · rw [if_pos hmem]
    exact ⟨Or.inl, fun h => h.elim id (fun hx => hx ▸ hmem)⟩
  · rw [if_neg hmem]
    simp

theorem mem_foldl_processHit_seen (ai : String → String → Except String (Option ℚ))
    (kw : String) (ctx : Option String) (hits : List HNHit) :
    ∀ (st : ScanState) (x : String),
      x ∈ (hits.foldl (processHit ai kw ctx) st).seen ↔
        x ∈ st.seen ∨ x ∈ hits.map (fun h => h.objectID) := by
  induction hits with
  | nil => intro st x; simp
  | cons h t ih =>
    intro st x
    rw [List.foldl_cons, ih, mem_processHit_seen]
    simp [or_assoc]

theorem mem_processKeyword_seen (w : World) (lc : Nat) (st : ScanState)
    (kc : KeywordConfig) (x : String) :
    x ∈ (processKeyword w lc st kc).seen ↔ x ∈ st.seen ∨ x ∈ searchIds w lc kc := by
  unfold processKeyword searchIds
  cases hs : w.search kc.keyword lc with
  | error e => simp
  | ok hits => simpa using mem_foldl_processHit_seen w.ai kc.keyword kc.context hits st x

theorem mem_scanKeywords_seen (w : World) (lc : Nat) (configs : List KeywordConfig) :
    ∀ (st : ScanState) (x : String),
      x ∈ (scanKeywords w lc configs st).seen ↔
        x ∈ st.seen ∨ ∃ kc ∈ configs, x ∈ searchIds w lc kc := by
  induction configs with
  | nil => intro st x; simp [scanKeywords]
  | cons kc rest ih =>
    intro st x
    have h1 : scanKeywords w lc (kc :: rest) st =
        scanKeywords w lc rest (processKeyword w lc st kc) := rfl
    rw [h1, ih, mem_processKeyword_seen]
    simp only [List.mem_cons, or_assoc]
    constructor
    · rintro (h | h | ⟨kc', hkc', h⟩)
      · exact Or.inl h
      · exact Or.inr ⟨kc, Or.inl rfl, h⟩
      · exact Or.inr ⟨kc', Or.inr hkc', h⟩
    · rintro (h | ⟨kc', hkc' | hkc', h⟩)
      · exact Or.inl h
      · exact Or.inr (Or.inl (hkc' ▸ h))
      · exact Or.inr (Or.inr ⟨kc', hkc', h⟩)

theorem mem_processHit_matched {m : MatchedHit}
    (ai : String → String → Except String (Option ℚ))
    (kw : String) (ctx : Option String) (st : ScanState) (hit : HNHit)
    (h : m ∈ (processHit ai kw ctx st hit).matched) :
    m ∈ st.matched ∨
      (m.hit.objectID ∉ st.seen ∧ m.keyword = kw ∧ m.hit = hit) := by
  rw [processHit_eq] at h
  by_cases hmem : hit.objectID ∈ st.seen
  · rw [if_pos hmem] at h
    exact Or.inl h
  · rw [if_neg hmem] at h
    simp only [List.mem_append] at h
    rcases h with h | h
    · exact Or.inl h
    · by_cases hinc : includeHit ai ctx hit
      · rw [if_pos hinc] at h
        simp only [List.mem_singleton] at h
        subst h
        exact Or.inr ⟨hmem, rfl, rfl⟩
      · rw [if_neg hinc] at h
        simp at h

theorem mem_foldl_processHit_matched {m : MatchedHit}
    (ai : String → String → Except String (Option ℚ))
    (kw : String) (ctx : Option String) (hits : List HNHit) :
    ∀ st : ScanState, m ∈ (hits.foldl (processHit ai kw ctx) st).matched →
      m ∈ st.matched ∨
        (m.hit.objectID ∉ st.seen ∧ m.keyword = kw ∧
          m.hit.objectID ∈ hits.map (fun h => h.objectID)) := by
  induction hits with
  | nil => intro st h; exact Or.inl h
  | cons h t ih =>
    intro st hm
    rcases ih (processHit ai kw ctx st h) hm with h1 | ⟨hni, hkw, hmem⟩
    · rcases mem_processHit_matched ai kw ctx st h h1 with h2 | ⟨hni, hkw, hhit⟩
      · exact Or.inl h2
      · exact Or.inr ⟨hni, hkw, by simp [hhit]⟩
    · refine Or.inr ⟨?_, hkw, by simp [hmem]⟩
      intro hx
      exact hni ((mem_processHit_seen ai kw ctx st h _).mpr (Or.inl hx))

theorem mem_processKeyword_matched {m : MatchedHit} (w : World) (lc : Nat)
    (st : ScanState) (kc : KeywordConfig)
    (h : m ∈ (processKeyword w lc st kc).matched) :
    m ∈ st.matched ∨
      (m.hit.objectID ∉ st.seen ∧ m.keyword = kc.keyword ∧
        m.hit.objectID ∈ searchIds w lc kc) := by
  unfold processKeyword at h
  unfold searchIds
  cases hs : w.search kc.keyword lc with
  | error e => rw [hs] at h; exact Or.inl h
  | ok hits =>
    rw [hs] at h
    exact mem_foldl_processHit_matched w.ai kc.keyword kc.context hits st h

theorem scanKeywords_attribution {m : MatchedHit} (w : World) (lc : Nat)
    (configs : List KeywordConfig) :
    ∀ st : ScanState, m ∈ (scanKeywords w lc configs st).matched →
      m ∈ st.matched ∨
        (m.hit.objectID ∉ st.seen ∧
          firstOwner w lc configs m.hit.objectID = some m.keyword) := by
  induction configs with
  | nil => intro st h; exact Or.inl h
  | cons kc rest ih =>
    intro st hm
    have h1 : scanKeywords w lc (kc :: rest) st =
        scanKeywords w lc rest (processKeyword w lc st kc) := rfl
    rw [h1] at hm
    rcases ih (processKeyword w lc st kc) hm with h2 | ⟨hni, hfo⟩
    · rcases mem_processKeyword_matched w lc st kc h2 with h3 | ⟨hni, hkw, hmem⟩
      · exact Or.inl h3
      · refine Or.inr ⟨hni, ?_⟩
        unfold firstOwner
        rw [if_pos hmem, hkw]
    · have hns : m.hit.objectID ∉ st.seen :=
        fun hx => hni ((mem_processKeyword_seen w lc st kc _).mpr (Or.inl hx))
      have hnk : m.hit.objectID ∉ searchIds w lc kc :=
        fun hx => hni ((mem_processKeyword_seen w lc st kc _).mpr (Or.inr hx))
      refine Or.inr ⟨hns, ?_⟩
      unfold firstOwner
      rw [if_neg hnk]
      exact hfo

/-- The cycle invariant behind cross-keyword deduplication: accumulated
match ids are pairwise distinct, and every accumulated id is in the
dedupe set. -/
def ScanInv (st : ScanState) : Prop :=
  (st.matched.map (fun m => m.hit.objectID)).Nodup ∧
    ∀ m ∈ st.matched, m.hit.objectID ∈ st.seen

theorem scanInv_processHit (ai : String → String → Except String (Option ℚ))
    (kw : String) (ctx : Option String) (st : ScanState) (hit : HNHit)
    (h : ScanInv st) : ScanInv (processHit ai kw ctx st hit) := by
  obtain ⟨hnd, hsub⟩ := h
  rw [processHit_eq]
  by_cases hmem : hit.objectID ∈ st.seen
  · rw [if_pos hmem]
    exact ⟨hnd, hsub⟩
  · rw [if_neg hmem]
    by_cases hinc : includeHit ai ctx hit
    · rw [if_pos hinc, if_pos hinc]
      constructor
      · rw [List.map_append]
        apply List.Nodup.append hnd (by simp)
        intro a ha hb
        simp only [List.map_cons, List.map_nil, List.mem_singleton] at hb
        obtain ⟨m', hm', hid⟩ := List.mem_map.mp ha
        exact hmem (hb ▸ hid ▸ hsub m' hm')
      · intro m hm
        rcases List.mem_append.mp hm with hm | hm
        · exact List.mem_append_left _ (hsub m hm)
        · simp only [List.mem_singleton] at hm
          subst hm
          exact List.mem_append_right _ (List.mem_singleton.mpr rfl)
    · rw [if_neg hinc, if_neg hinc]
      refine ⟨by simpa using hnd, ?_⟩
      intro m hm
      simp only [List.append_nil] at hm
      exact List.mem_append_left _ (hsub m hm)

theorem scanInv_foldl_processHit (ai : String → String → Except String (Option ℚ))
    (kw : String) (ctx : Option String) (hits : List HNHit) :
    ∀ st : ScanState, ScanInv st → ScanInv (hits.foldl (processHit ai kw ctx) st) := by
  induction hits with
  | nil => intro st h; exact h
  | cons h t ih => intro st hst; exact ih _ (scanInv_processHit ai kw ctx st h hst)

theorem scanInv_processKeyword (w : World) (lc : Nat) (st : ScanState)
    (kc : KeywordConfig) (h : ScanInv st) : ScanInv (processKeyword w lc st kc) := by
  unfold processKeyword
  cases hs : w.search kc.keyword lc with
  | error e => exact h
  | ok hits => exact scanInv_foldl_processHit w.ai kc.keyword kc.context hits st h

theorem scanInv_scanKeywords (w : World) (lc : Nat) (configs : List KeywordConfig) :
    ∀ st : ScanState, ScanInv st → ScanInv (scanKeywords w lc configs st) := by
  induction configs with
  | nil => intro st h; exact h
  | cons kc rest ih => intro st hst; exact ih _ (scanInv_processKeyword w lc st kc hst)

theorem nodup_ids_filter_le_one {l : List MatchedHit}
    (hnd : (l.map (fun m => m.hit.objectID)).Nodup) (id : String) :
    (l.filter (fun m => m.hit.objectID = id)).length ≤ 1 := by
  induction l with
  | nil => simp
  | cons m t ih =>
    simp only [List.map_cons, List.nodup_cons] at hnd
    obtain ⟨hnm, hnd'⟩ := hnd
    by_cases hm : m.hit.objectID = id
    · rw [List.filter_cons_of_pos (by simp [hm])]
      have ht : t.filter (fun m => m.hit.objectID = id) = [] := by
        simp only [List.filter_eq_nil_iff, decide_eq_true_eq]
        intro x hx hxid
        exact hnm (List.mem_map.mpr ⟨x, hx, by rw [hxid, hm]⟩)
      simp [ht]
    · rw [List.filter_cons_of_neg (by simp [hm])]
      exact ih hnd'

/-- C2: for a hit id returned by more than one keyword's search in a
cycle, the accumulated batch holds at most one MatchedHit with that id,
and any such match is attributed to the earliest keyword in list order
whose successful search returned the id. -/
theorem C2_dedupe_first_keyword_wins (w : World) (s : KVState) (id : String)
    (hmulti : 1 < ((getKeywords s.keywords).filter
      (fun kc => id ∈ searchIds w (getLastCheckTimestamp s w.now) kc)).length) :
    (((scanKeywords w (getLastCheckTimestamp s w.now) (getKeywords s.keywords)
        ⟨[], [], 0⟩).matched).filter (fun m => m.hit.objectID = id)).length ≤ 1 ∧
    ∀ m ∈ (scanKeywords w (getLastCheckTimestamp s w.now) (getKeywords s.keywords)
        ⟨[], [], 0⟩).matched, m.hit.objectID = id →
      firstOwner w (getLastCheckTimestamp s w.now) (getKeywords s.keywords) id =
        some m.keyword := by
  constructor
  · have hinv := scanInv_scanKeywords w (getLastCheckTimestamp s w.now)
      (getKeywords s.keywords) ⟨[], [], 0⟩ ⟨by simp, by simp⟩
    exact nodup_ids_filter_le_one hinv.1 id
  · intro m hm hid
    rcases scanKeywords_attribution w (getLastCheckTimestamp s w.now)
      (getKeywords s.keywords) ⟨[], [], 0⟩ hm with h | ⟨_, hfo⟩
    · simp at h
    · rw [← hid]
      exact hfo

/-- Concrete world for the C2 witness: `"rust"` and `"zig"` both return
hit `"h1"`; `"zig"` additionally returns `"h2"`. -/
def dupWorld : World :=
  ⟨fun q _ =>
    if q = "rust" then .ok [⟨"h1", some "T1", none, none, none, "a", 0, none⟩]
    else if q = "zig" then
      .ok [⟨"h1", some "T1", none, none, none, "a", 0, none⟩,
           ⟨"h2", some "T2", none, none, none, "b", 0, none⟩]
    else .ok [],
   fun _ _ => .ok none, 1000, "topic"⟩

/-- Concrete store for the C2 witness. -/
def dupStore : KVState := ⟨.current [⟨"rust", none⟩, ⟨"zig", none⟩], some 100⟩

/-- Witness for C2: id `"h1"` is returned by both keywords, appears once
in the batch, and is attributed to `"rust"`, the earlier keyword. -/
theorem C2_dedupe_first_keyword_wins_witness :
    1 < ((getKeywords dupStore.keywords).filter
      (fun kc => "h1" ∈ searchIds dupWorld (getLastCheckTimestamp dupStore dupWorld.now) kc)).length ∧
    (((scanKeywords dupWorld (getLastCheckTimestamp dupStore dupWorld.now)
        (getKeywords dupStore.keywords) ⟨[], [], 0⟩).matched).filter
        (fun m => m.hit.objectID = "h1")).length ≤ 1 ∧
    firstOwner dupWorld (getLastCheckTimestamp dupStore dupWorld.now)
        (getKeywords dupStore.keywords) "h1" = some "rust" := by
  refine ⟨by decide, (C2_dedupe_first_keyword_wins dupWorld dupStore "h1" (by decide)).1, ?_⟩
  exact (C2_dedupe_first_keyword_wins dupWorld dupStore "h1" (by decide)).2
    ⟨"rust", ⟨"h1", some "T1", none, none, none, "a", 0, none⟩⟩ (by decide) rfl

/-- Concrete world for the C6 witness: the `"rust"` query fails, the
`"zig"` query succeeds. -/
def failWorld : World :=
  ⟨fun q _ =>
    if q = "rust" then .error "HN API error: 503"
    else if q = "zig" then
      .ok [⟨"z1", some "Zig 0.12", none, none, none, "a", 0, none⟩]
    else .ok [],
   fun _ _ => .ok none, 2000, "topic"⟩

/-- Concrete store for the C6 witness. -/
def failStore : KVState := ⟨.current [⟨"rust", none⟩, ⟨"zig", none⟩], some 100⟩

/-- Witness for C6: with `"rust"` failing, the scan equals the scan
without `"rust"` (so `"zig"`'s match survives), and the watermark still
advances to now = 2000. -/
theorem C6_search_failure_isolated_witness :
    scanKeywords failWorld 100 ([] ++ ⟨"rust", none⟩ :: [⟨"zig", none⟩]) ⟨[], [], 0⟩ =
      scanKeywords failWorld 100 ([] ++ [⟨"zig", none⟩]) ⟨[], [], 0⟩ ∧
    ((handleScheduled failWorld failStore).1).lastCheck = some 2000 := by
  have h := C6_search_failure_isolated failWorld failStore 100 ⟨[], [], 0⟩ []
    [⟨"zig", none⟩] ⟨"rust", none⟩ "HN API error: 503" rfl (by decide) (by decide)
  exact ⟨h.1, h.2⟩

theorem handleScheduled_notification (w : World) (s : KVState)
    (hk : ¬ (getKeywords s.keywords).length = 0) (ht : ¬ w.ntfyTopic = "") :
    (handleScheduled w s).2 =
      match (scanKeywords w (getLastCheckTimestamp s w.now)
          (getKeywords s.keywords) ⟨[], [], 0⟩).matched with
      | [] => none
      | m :: rest =>
        some ⟨(formatBatchNotification (m :: rest)).1,
              (formatBatchNotification (m :: rest)).2, notificationUrl m⟩ := by
  unfold handleScheduled
  rw [if_neg hk, if_neg ht]

/-- C8: a single-match notification carries `[keyword] title` and the
comment snippet (or `by author`); a multi-match notification carries the
count title, the keyword(count) summary, up to 10 bullets and the
overflow line; and any sent notification's link is built from the first
accumulated match's hit id only. -/
theorem C8_notification_format (kw : String) (hit : HNHit) (m m2 : MatchedHit)
    (rest : List MatchedHit) (w : World) (s : KVState) :
    (∀ ct, hit.comment_text = some ct → ct ≠ "" →
      formatBatchNotification [⟨kw, hit⟩] =
        ("[" ++ kw ++ "] " ++ itemTitle hit, strTake (stripHtml ct) 200 ++ "...")) ∧
    (hit.comment_text = none →
      formatBatchNotification [⟨kw, hit⟩] =
        ("[" ++ kw ++ "] " ++ itemTitle hit, "by " ++ hit.author)) ∧
    (formatBatchNotification (m :: m2 :: rest) =
      ("HN Alert: " ++ toString (m :: m2 :: rest).length ++ " matches",
       String.intercalate "\n"
         ([String.intercalate ", " ((keywordCounts (m :: m2 :: rest)).map
             (fun p => p.1 ++ "(" ++ toString p.2 ++ ")")), ""] ++
          ((m :: m2 :: rest).take 10).map
            (fun x => "• [" ++ x.keyword ++ "] " ++ strTake (itemTitle x.hit) 60) ++
          (if (m :: m2 :: rest).length > 10 then
            ["... and " ++ toString ((m :: m2 :: rest).length - 10) ++ " more"]
           else [])))) ∧
    (∀ n : Notification, (handleScheduled w s).2 = some n →
      ∃ m0 r0, (scanKeywords w (getLastCheckTimestamp s w.now)
          (getKeywords s.keywords) ⟨[], [], 0⟩).matched = m0 :: r0 ∧
        n.url = notificationUrl m0 ∧
        n.title = (formatBatchNotification (m0 :: r0)).1 ∧
        n.body = (formatBatchNotification (m0 :: r0)).2) := by
  refine ⟨?_, ?_, ?_, ?_⟩
  · intro ct hct hne
    simp [formatBatchNotification, formatHitBody, hct, hne]
  · intro hct
    simp [formatBatchNotification, formatHitBody, hct]
  · rfl
  · intro n h
    by_cases h1 : (getKeywords s.keywords).length = 0
    · unfold handleScheduled at h
      rw [if_pos h1] at h
      simp at h
    · by_cases h2 : w.ntfyTopic = ""
      · unfold handleScheduled at h
        rw [if_neg h1, if_pos h2] at h
        simp at h
      · rw [handleScheduled_notification w s h1 h2] at h
        rcases hm : (scanKeywords w (getLastCheckTimestamp s w.now)
            (getKeywords s.keywords) ⟨[], [], 0⟩).matched with _ | ⟨m0, r0⟩
        · rw [hm] at h
          simp at h
        · rw [hm] at h
          simp only [Option.some.injEq] at h
          subst h
          exact ⟨m0, r0, rfl, rfl, rfl, rfl⟩

/-- Concrete world for the C8 witness: one keyword, one story hit. -/
def fmtWorld : World :=
  ⟨fun q _ =>
    if q = "rust" then .ok [⟨"s1", some "Title", none, none, none, "bob", 0, none⟩]
    else .ok [],
   fun _ _ => .ok none, 500, "topic"⟩

/-- Concrete store for the C8 witness. -/
def fmtStore : KVState := ⟨.current [⟨"rust", none⟩], some 10⟩

/-- Witness for C8: concrete single-comment, single-story and two-match
notifications, plus a sent notification whose link is derived from the
first match's id. -/
theorem C8_notification_format_witness :
    formatBatchNotification [⟨"rust",
        ⟨"c1", none, some "Story", none, none, "alice", 0,
          some "Great <b>post</b> about rust"⟩⟩] =
      ("[rust] Story", "Great  post  about rust...") ∧
    formatBatchNotification [⟨"rust",
        ⟨"s1", some "Title", none, none, none, "bob", 0, none⟩⟩] =
      ("[rust] Title", "by bob") ∧
    formatBatchNotification
        [⟨"rust", ⟨"s1", some "Title", none, none, none, "bob", 0, none⟩⟩,
         ⟨"zig", ⟨"c1", none, some "Story", none, none, "alice", 0,
            some "Great <b>post</b> about rust"⟩⟩] =
      ("HN Alert: 2 matches", "rust(1), zig(1)\n\n• [rust] Title\n• [zig] Story") ∧
    (∃ m0 r0, (scanKeywords fmtWorld (getLastCheckTimestamp fmtStore fmtWorld.now)
        (getKeywords fmtStore.keywords) ⟨[], [], 0⟩).matched = m0 :: r0 ∧
      (⟨"[rust] Title", "by bob", "https://news.ycombinator.com/item?id=s1"⟩ :
        Notification).url = notificationUrl m0 ∧
      (⟨"[rust] Title", "by bob", "https://news.ycombinator.com/item?id=s1"⟩ :
        Notification).title = (formatBatchNotification (m0 :: r0)).1 ∧
      (⟨"[rust] Title", "by bob", "https://news.ycombinator.com/item?id=s1"⟩ :
        Notification).body = (formatBatchNotification (m0 :: r0)).2) := by
  refine ⟨?_, ?_, ?_, ?_⟩
  · have h := (C8_notification_format "rust"
      ⟨"c1", none, some "Story", none, none, "alice", 0,
        some "Great <b>post</b> about rust"⟩
      ⟨"rust", ⟨"s1", some "Title", none, none, none, "bob", 0, none⟩⟩
      ⟨"zig", ⟨"c1", none, some "Story", none, none, "alice", 0, none⟩⟩ []
      fmtWorld fmtStore).1 "Great <b>post</b> about rust" rfl (by decide)
    rw [h]
    decide
  · have h := (C8_notification_format "rust"
      ⟨"s1", some "Title", none, none, none, "bob", 0, none⟩
      ⟨"rust", ⟨"s1", some "Title", none, none, none, "bob", 0, none⟩⟩
      ⟨"zig", ⟨"c1", none, some "Story", none, none, "alice", 0, none⟩⟩ []
      fmtWorld fmtStore).2.1 rfl
    rw [h]
    decide
  · have h := (C8_notification_format "rust"
      ⟨"s1", some "Title", none, none, none, "bob", 0, none⟩
      ⟨"rust", ⟨"s1", some "Title", none, none, none, "bob", 0, none⟩⟩
      ⟨"zig", ⟨"c1", none, some "Story", none, none, "alice", 0,
        some "Great <b>post</b> about rust"⟩⟩ []
      fmtWorld fmtStore).2.2.1
    rw [h]
    decide
  · exact (C8_notification_format "rust"
      ⟨"s1", some "Title", none, none, none, "bob", 0, none⟩
      ⟨"rust", ⟨"s1", some "Title", none, none, none, "bob", 0, none⟩⟩
      ⟨"zig", ⟨"c1", none, some "Story", none, none, "alice", 0, none⟩⟩ []
      fmtWorld fmtStore).2.2.2
      ⟨"[rust] Title", "by bob", "https://news.ycombinator.com/item?id=s1"⟩ (by decide)

/-- C10: adding a keyword whose trimmed, lowercased form is empty fails
with the empty-keyword error and returns the store state unchanged (the
error is raised before the KV write). -/
theorem C10_empty_keyword_rejected (s : KVState) (k : String) (c : Option String)
    (h : normalize k = "") :
    addKeyword s k c = (.error "Keyword cannot be empty", s) := by
  simp [addKeyword, h]

/-- Witness for C10: a whitespace-only keyword is rejected and the store
is left untouched. -/
theorem C10_empty_keyword_rejected_witness :
    normalize "   " = "" ∧
    addKeyword ⟨.current [⟨"rust", none⟩], some 7⟩ "   " (some "ctx") =
      (.error "Keyword cannot be empty", ⟨.current [⟨"rust", none⟩], some 7⟩) :=
  ⟨by decide, C10_empty_keyword_rejected ⟨.current [⟨"rust", none⟩], some 7⟩ "   " (some "ctx") (by decide)⟩

end HNNotify
